import Mathlib

/-!
# Verification of the kashshaf query engine specification

Shallow embedding of the query-engine core of the kashshaf repository
(`src-tauri/src/search.rs` and `src-tauri/src/cache.rs`) together with
proofs settling the specification claims.

Strings are modelled as lists of characters (`List Char`); index side
effects (Tantivy readers, postings cursors, SQLite reads) are modelled by
passing the data those reads would produce as explicit arguments, while
every computation performed by the repository's own code is translated
function by function.
-/

namespace Kashshaf

/-! ## Text normalizer (`normalize_arabic`, search.rs lines 14-36)

The Rust function maps the string character by character: code points in
U+064B..U+065F plus U+0670 and U+0671 are dropped, a fixed table of
hamza/alif and Perso-Arabic variants is folded, and every other character
is kept. -/

/-- Per-character action of `normalize_arabic` (search.rs lines 16-33):
`none` drops the character, `some d` replaces it by `d`. -/
def normChar (c : Char) : Option Char :=
  if (0x064B ≤ c.toNat ∧ c.toNat ≤ 0x065F) ∨ c.toNat = 0x0670 ∨ c.toNat = 0x0671 then none
  else if c = 'أ' ∨ c = 'إ' ∨ c = 'آ' then some 'ا'
  else if c = 'ؤ' then some 'و'
  else if c = 'ئ' ∨ c = 'ى' then some 'ي'
  else if c = 'ک' ∨ c = 'گ' ∨ c = 'ڭ' then some 'ك'
  else if c = 'ی' ∨ c = 'ے' then some 'ي'
  else if c = 'ۀ' ∨ c = 'ە' then some 'ه'
  else if c = 'ۃ' then some 'ة'
  else if c = 'ٹ' then some 'ت'
  else if c = 'پ' then some 'ب'
  else if c = 'چ' then some 'ج'
  else if c = 'ژ' then some 'ز'
  else if c = 'ڤ' then some 'ف'
  else if c = 'ڨ' then some 'ق'
  else some c

/-- `normalize_arabic` (search.rs lines 14-36): `chars().filter_map(..)`. -/
def normalize_arabic (s : List Char) : List Char :=
  s.filterMap normChar

/-- Every character emitted by `normChar` is a fixed point of `normChar`. -/
theorem normChar_output_fixed (c d : Char) (h : normChar c = some d) :
    normChar d = some d := by
  unfold normChar at h
  by_cases h1 : (0x064B ≤ c.toNat ∧ c.toNat ≤ 0x065F) ∨ c.toNat = 0x0670 ∨ c.toNat = 0x0671
  · rw [if_pos h1] at h; exact Option.noConfusion h
  rw [if_neg h1] at h
  by_cases h2 : c = 'أ' ∨ c = 'إ' ∨ c = 'آ'
  · rw [if_pos h2] at h; injection h with h; subst h; decide
  rw [if_neg h2] at h
  by_cases h3 : c = 'ؤ'
  · rw [if_pos h3] at h; injection h with h; subst h; decide
  rw [if_neg h3] at h
  by_cases h4 : c = 'ئ' ∨ c = 'ى'
  · rw [if_pos h4] at h; injection h with h; subst h; decide
  rw [if_neg h4] at h
  by_cases h5 : c = 'ک' ∨ c = 'گ' ∨ c = 'ڭ'
  · rw [if_pos h5] at h; injection h with h; subst h; decide
  rw [if_neg h5] at h
  by_cases h6 : c = 'ی' ∨ c = 'ے'
  · rw [if_pos h6] at h; injection h with h; subst h; decide
  rw [if_neg h6] at h
  by_cases h7 : c = 'ۀ' ∨ c = 'ە'
  · rw [if_pos h7] at h; injection h with h; subst h; decide
  rw [if_neg h7] at h
  by_cases h8 : c = 'ۃ'
  · rw [if_pos h8] at h; injection h with h; subst h; decide
  rw [if_neg h8] at h
  by_cases h9 : c = 'ٹ'
  · rw [if_pos h9] at h; injection h with h; subst h; decide
  rw [if_neg h9] at h
  by_cases h10 : c = 'پ'
  · rw [if_pos h10] at h; injection h with h; subst h; decide
  rw [if_neg h10] at h
  by_cases h11 : c = 'چ'
  · rw [if_pos h11] at h; injection h with h; subst h; decide
  rw [if_neg h11] at h
  by_cases h12 : c = 'ژ'
  · rw [if_pos h12] at h; injection h with h; subst h; decide
  rw [if_neg h12] at h
  by_cases h13 : c = 'ڤ'
  · rw [if_pos h13] at h; injection h with h; subst h; decide
  rw [if_neg h13] at h
  by_cases h14 : c = 'ڨ'
  · rw [if_pos h14] at h; injection h with h; subst h; decide
  rw [if_neg h14] at h
  injection h with h; subst h
  unfold normChar
  rw [if_neg h1, if_neg h2, if_neg h3, if_neg h4, if_neg h5, if_neg h6, if_neg h7,
    if_neg h8, if_neg h9, if_neg h10, if_neg h11, if_neg h12, if_neg h13, if_neg h14]

/-- Idempotence of the character-level surface normalization, lifted to lists. -/
theorem normalize_arabic_idem (s : List Char) :
    normalize_arabic (normalize_arabic s) = normalize_arabic s := by
  induction s with
  | nil => rfl
  | cons c cs ih =>
    unfold normalize_arabic at ih ⊢
    cases hc : normChar c with
    | none => rw [List.filterMap_cons_none hc, ih]
    | some d =>
      rw [List.filterMap_cons_some hc, List.filterMap_cons_some (normChar_output_fixed c d hc), ih]

/-! ## Whitespace splitting

Rust's `str::split_whitespace` and Tantivy's whitespace tokenizer both cut
at Unicode `White_Space` characters and drop empty chunks. -/

/-- The Unicode `White_Space` property, as used by Rust's
`char::is_whitespace`. -/
def isRustWhitespace (c : Char) : Bool :=
  (0x09 ≤ c.toNat && c.toNat ≤ 0x0D) || c.toNat == 0x20 || c.toNat == 0x85 ||
  c.toNat == 0xA0 || c.toNat == 0x1680 || (0x2000 ≤ c.toNat && c.toNat ≤ 0x200A) ||
  c.toNat == 0x2028 || c.toNat == 0x2029 || c.toNat == 0x202F || c.toNat == 0x205F ||
  c.toNat == 0x3000

/-- Accumulator-based splitter behind `splitWS`; `acc` holds the current
word reversed. -/
def splitWSAux : List Char → List Char → List (List Char)
  | [], acc => if acc.isEmpty then [] else [acc.reverse]
  | c :: cs, acc =>
    if isRustWhitespace c then
      if acc.isEmpty then splitWSAux cs [] else acc.reverse :: splitWSAux cs []
    else splitWSAux cs (c :: acc)

/-- `str::split_whitespace`: the maximal non-whitespace chunks, in order. -/
def splitWS (l : List Char) : List (List Char) :=
  splitWSAux l []

/-- `str::trim`: strip leading and trailing Unicode whitespace. -/
def rustTrim (l : List Char) : List Char :=
  ((l.dropWhile isRustWhitespace).reverse.dropWhile isRustWhitespace).reverse

/-! ## Root normalization (`normalize_root_query`, search.rs lines 39-53)

Surface-normalize, then per whitespace word map weak letters to `"#"` and
all other characters to themselves (each as a one-character string) and
join the pieces with `"."`; words are rejoined with a single space. -/

/-- The weak-letter set of `normalize_root_query` (search.rs line 41). -/
def isWeakLetter (c : Char) : Bool :=
  c == 'و' || c == 'ي' || c == 'ا' || c == 'ء'

/-- Per-character mapping inside a root word (search.rs line 47):
a one-character string, `"#"` for weak letters. -/
def rootWordChar (c : Char) : List Char :=
  if isWeakLetter c then ['#'] else [c]

/-- One word of the root query: characters mapped by `rootWordChar`,
joined with `"."` (search.rs lines 46-49). -/
def rootWord (w : List Char) : List Char :=
  List.intercalate ['.'] (w.map rootWordChar)

/-- `normalize_root_query` (search.rs lines 39-53). -/
def normalize_root_query (s : List Char) : List Char :=
  List.intercalate [' '] ((splitWS (normalize_arabic s)).map rootWord)

/-! ## Sorting and deduplication infrastructure

Rust's stable `sort_by` / `sort_unstable` on position vectors followed by
`Vec::dedup` (which removes consecutive duplicates) is modelled with
Mathlib's stable insertion sort followed by a consecutive-duplicate
filter.  The output of a stable sort is uniquely determined by the
comparator and the input order, so insertion sort is a faithful model of
Rust's stable `sort_by`; on `Nat` with `≤`, equal elements are
indistinguishable, so it also models `sort_unstable`. -/

/-- `Vec::dedup`: drop consecutive duplicates, keeping the first of each
run. -/
def rustDedup : List Nat → List Nat
  | [] => []
  | [a] => [a]
  | a :: b :: l => if a = b then rustDedup (b :: l) else a :: rustDedup (b :: l)

theorem mem_rustDedup (x : Nat) : ∀ (l : List Nat), x ∈ rustDedup l ↔ x ∈ l
  | [] => Iff.rfl
  | [a] => Iff.rfl
  | a :: b :: l => by
    unfold rustDedup
    by_cases hab : a = b
    · rw [if_pos hab]
      rw [mem_rustDedup x (b :: l)]
      subst hab
      simp
    · rw [if_neg hab]
      simp [mem_rustDedup x (b :: l)]

theorem rustDedup_pairwise_lt :
    ∀ (l : List Nat), l.Pairwise (· ≤ ·) → (rustDedup l).Pairwise (· < ·)
  | [], _ => List.Pairwise.nil
  | [a], _ => List.pairwise_singleton _ a
  | a :: b :: l, h => by
    unfold rustDedup
    have htail : (b :: l).Pairwise (· ≤ ·) := h.of_cons
    by_cases hab : a = b
    · rw [if_pos hab]
      exact rustDedup_pairwise_lt (b :: l) htail
    · rw [if_neg hab]
      refine List.pairwise_cons.2 ⟨?_, rustDedup_pairwise_lt (b :: l) htail⟩
      intro y hy
      have hy' : y ∈ b :: l := (mem_rustDedup y (b :: l)).1 hy
      have hab' : a < b := lt_of_le_of_ne (List.rel_of_pairwise_cons h (List.mem_cons_self b l)) hab
      rcases List.mem_cons.1 hy' with rfl | hy''
      · exact hab'
      · exact lt_of_lt_of_le hab' (List.rel_of_pairwise_cons htail hy'')

/-- Two strictly sorted lists with the same members are equal. -/
theorem strictSorted_eq : ∀ (l m : List Nat), l.Pairwise (· < ·) → m.Pairwise (· < ·) →
    (∀ x, x ∈ l ↔ x ∈ m) → l = m
  | [], [], _, _, _ => rfl
  | [], b :: m', _, _, hmem => absurd ((hmem b).2 (List.mem_cons_self b m')) (List.not_mem_nil b)
  | a :: l', [], _, _, hmem => absurd ((hmem a).1 (List.mem_cons_self a l')) (List.not_mem_nil a)
  | a :: l', b :: m', hl, hm, hmem => by
    have hab : a = b := by
      by_contra hne
      have ha : a ∈ b :: m' := (hmem a).1 (List.mem_cons_self a l')
      have hb : b ∈ a :: l' := (hmem b).2 (List.mem_cons_self b m')
      rcases List.mem_cons.1 ha with h1 | h1
      · exact hne h1
      rcases List.mem_cons.1 hb with h2 | h2
      · exact hne h2.symm
      exact absurd (List.rel_of_pairwise_cons hl h2) (not_lt_of_lt (List.rel_of_pairwise_cons hm h1))
    subst hab
    have htails : ∀ x, x ∈ l' ↔ x ∈ m' := by
      intro x
      constructor
      · intro hx
        have hax : a < x := List.rel_of_pairwise_cons hl hx
        rcases List.mem_cons.1 ((hmem x).1 (List.mem_cons_of_mem a hx)) with rfl | h
        · exact absurd hax (lt_irrefl x)
        · exact h
      · intro hx
        have hax : a < x := List.rel_of_pairwise_cons hm hx
        rcases List.mem_cons.1 ((hmem x).2 (List.mem_cons_of_mem a hx)) with rfl | h
        · exact absurd hax (lt_irrefl x)
        · exact h
    exact congrArg (a :: ·) (strictSorted_eq l' m' hl.of_cons hm.of_cons htails)

/-- `sort_unstable` on a position vector. -/
def sortNat (l : List Nat) : List Nat :=
  List.insertionSort (· ≤ ·) l

theorem sortNat_pairwise (l : List Nat) : (sortNat l).Pairwise (· ≤ ·) :=
  List.sorted_insertionSort (· ≤ ·) l

theorem mem_sortNat (x : Nat) (l : List Nat) : x ∈ sortNat l ↔ x ∈ l :=
  (List.perm_insertionSort (· ≤ ·) l).mem_iff

/-- `positions.sort_unstable(); positions.dedup()`: the canonical strictly
increasing enumeration of the members. -/
def sortDedup (l : List Nat) : List Nat :=
  rustDedup (sortNat l)

theorem sortDedup_pairwise_lt (l : List Nat) : (sortDedup l).Pairwise (· < ·) :=
  rustDedup_pairwise_lt _ (sortNat_pairwise l)

theorem mem_sortDedup (x : Nat) (l : List Nat) : x ∈ sortDedup l ↔ x ∈ l :=
  (mem_rustDedup x (sortNat l)).trans (mem_sortNat x l)

/-- Lists with the same members have the same sorted deduplication. -/
theorem sortDedup_congr (l m : List Nat) (h : ∀ x, x ∈ l ↔ x ∈ m) :
    sortDedup l = sortDedup m :=
  strictSorted_eq _ _ (sortDedup_pairwise_lt l) (sortDedup_pairwise_lt m)
    (fun x => (mem_sortDedup x l).trans ((h x).trans (mem_sortDedup x m).symm))

/-! ## Search results and the chronological sort

`SearchResult` (search.rs lines 216-234) is modelled with the fields the
claims depend on: the book id, the segment ordinal and in-segment doc id
of the candidate (used by combined search's per-segment batching), the
author death year, and the highlight positions. -/

structure Res where
  id : Nat
  seg : Nat
  docId : Nat
  death_ah : Option Nat
  matched : List Nat
deriving DecidableEq, Repr

/-- The `sort_by` comparator used by every mode (search.rs lines 448-455):
`a` may precede `b` (the comparator does not return `Greater`). -/
def deathLe : Option Nat → Option Nat → Bool
  | some x, some y => x ≤ y
  | some _, none => true
  | none, some _ => false
  | none, none => true

def resLe (a b : Res) : Prop :=
  deathLe a.death_ah b.death_ah = true

instance : DecidableRel resLe :=
  fun a b => decEq (deathLe a.death_ah b.death_ah) true

instance : IsTotal Res resLe :=
  ⟨by
    intro a b
    unfold resLe deathLe
    cases a.death_ah <;> cases b.death_ah <;> simp <;> omega⟩

instance : IsTrans Res resLe :=
  ⟨by
    intro a b c
    unfold resLe deathLe
    cases a.death_ah <;> cases b.death_ah <;> cases c.death_ah <;> simp <;> omega⟩

/-- The chronological re-sort shared by all five modes (search.rs lines
447-455, 1465-1473, 1700-1708, 1924-1932, 2257-2265): a stable sort by
`death_ah` ascending with missing years last. -/
def sortByDeath (l : List Res) : List Res :=
  List.insertionSort resLe l

theorem sortByDeath_pairwise (l : List Res) : (sortByDeath l).Pairwise resLe :=
  List.sorted_insertionSort resLe l

theorem sortByDeath_perm (l : List Res) : List.Perm (sortByDeath l) l :=
  List.perm_insertionSort resLe l

/-- The relation claim C2 asserts between adjacent results. -/
def chronOk (a b : Res) : Prop :=
  (∃ x y, a.death_ah = some x ∧ b.death_ah = some y ∧ x ≤ y) ∨ b.death_ah = none

/-- The chronological-order property of claim C2: adjacent results are
ordered and results without a death year come after all results with
one. -/
def chronological (l : List Res) : Prop :=
  l.Chain' chronOk ∧
    ∀ (i j : Nat) (hi : i < l.length) (hj : j < l.length), i ≤ j →
      (l.get ⟨i, hi⟩).death_ah = none → (l.get ⟨j, hj⟩).death_ah = none

theorem resLe_chronOk (a b : Res) (h : resLe a b) : chronOk a b := by
  unfold resLe deathLe at h
  unfold chronOk
  cases ha : a.death_ah with
  | none =>
    cases hb : b.death_ah with
    | none => exact Or.inr rfl
    | some y => rw [ha, hb] at h; simp at h
  | some x =>
    cases hb : b.death_ah with
    | none => exact Or.inr rfl
    | some y =>
      rw [ha, hb] at h
      exact Or.inl ⟨x, y, rfl, rfl, by simpa using h⟩

theorem resLe_none (a b : Res) (h : resLe a b) (ha : a.death_ah = none) :
    b.death_ah = none := by
  unfold resLe deathLe at h
  rw [ha] at h
  cases hb : b.death_ah with
  | none => rfl
  | some y => rw [hb] at h; simp at h

/-- A list that is pairwise ordered by the sort comparator satisfies the
chronological-order property. -/
theorem pairwise_resLe_chronological (l : List Res) (h : l.Pairwise resLe) :
    chronological l := by
  constructor
  · exact List.Chain'.imp (fun a b => resLe_chronOk a b) h.chain'
  · intro i j hi hj hij hnone
    rcases Nat.eq_or_lt_of_le hij with rfl | hlt
    · exact hnone
    · exact resLe_none _ _ (List.pairwise_iff_get.1 h ⟨i, hi⟩ ⟨j, hj⟩ hlt) hnone

theorem chronological_sortByDeath (l : List Res) : chronological (sortByDeath l) :=
  pairwise_resLe_chronological _ (sortByDeath_pairwise l)

theorem chronological_drop_take (l : List Res) (h : l.Pairwise resLe) (o n : Nat) :
    chronological ((l.drop o).take n) :=
  pairwise_resLe_chronological _ (h.sublist ((List.take_sublist _ _).trans (List.drop_sublist _ _)))

/-! ## Position probe (`get_matched_positions_internal`, search.rs lines 568-613)

The function iterates over the query terms; for each term it appends the
term's raw positions in the target document to an accumulator, and stops
as soon as the accumulator holds at least `max_positions` entries; it then
sorts, deduplicates and truncates the accumulator.  The postings reads are
modelled by handing the function the per-term raw position lists directly
(a term whose postings read fails or that misses the document contributes
the empty list). -/

/-- The accumulation loop of `get_matched_positions_internal`
(search.rs lines 583-607): extend with each term's positions, break once
`max_positions` entries have been gathered. -/
def accumPositions (maxP : Nat) : List (List Nat) → List Nat → List Nat
  | [], acc => acc
  | ps :: rest, acc =>
    if maxP ≤ (acc ++ ps).length then acc ++ ps
    else accumPositions maxP rest (acc ++ ps)

/-- `get_matched_positions_internal` (search.rs lines 568-613), with the
per-term raw position lists of the target document as input. -/
def get_matched_positions_internal (termPositions : List (List Nat)) (maxP : Nat) : List Nat :=
  (sortDedup (accumPositions maxP termPositions [])).take maxP

/-- What claim C9 (and spec §4.3) says the probe returns: the union of all
the terms' raw positions, sorted, deduplicated, truncated to `max`. -/
def positionsUnionSpec (termPositions : List (List Nat)) (maxP : Nat) : List Nat :=
  (sortDedup termPositions.flatten).take maxP

theorem accumPositions_all (maxP : Nat) :
    ∀ (ls : List (List Nat)) (acc : List Nat), (acc ++ ls.flatten).length ≤ maxP →
      accumPositions maxP ls acc = acc ++ ls.flatten
  | [], acc, _ => by simp [accumPositions]
  | ps :: rest, acc, h => by
    unfold accumPositions
    by_cases hbr : maxP ≤ (acc ++ ps).length
    · rw [if_pos hbr]
      have hlen : (acc ++ (ps :: rest).flatten).length
          = (acc ++ ps).length + rest.flatten.length := by
        simp [Nat.add_assoc]
      have hrest : rest.flatten.length = 0 := by omega
      have : rest.flatten = [] := List.eq_nil_of_length_eq_zero hrest
      simp [this]
    · rw [if_neg hbr]
      have h' : ((acc ++ ps) ++ rest.flatten).length ≤ maxP := by
        simp only [List.append_assoc]
        simpa [Nat.add_assoc] using h
      rw [accumPositions_all maxP rest (acc ++ ps) h']
      simp

/-- When the terms' raw positions jointly fit under the cap, the early
break never fires and the probe computes exactly the spec's union. -/
theorem get_matched_positions_internal_eq_spec (termPositions : List (List Nat)) (maxP : Nat)
    (h : termPositions.flatten.length ≤ maxP) :
    get_matched_positions_internal termPositions maxP = positionsUnionSpec termPositions maxP := by
  unfold get_matched_positions_internal positionsUnionSpec
  rw [accumPositions_all maxP termPositions [] (by simpa using h)]
  rfl

/-- For a single term the probe also computes exactly the spec's union. -/
theorem get_matched_positions_internal_single (ps : List Nat) (maxP : Nat) :
    get_matched_positions_internal [ps] maxP = positionsUnionSpec [ps] maxP := by
  unfold get_matched_positions_internal positionsUnionSpec accumPositions
  by_cases hbr : maxP ≤ (([] : List Nat) ++ ps).length
  · rw [if_pos hbr]; simp
  · rw [if_neg hbr]; simp [accumPositions]

/-! ## Proximity search (`proximity_search`, search.rs lines 1520-1719)

A candidate document is modelled by its stored fields plus the raw
per-term position lists that the two position probes would read for
`term1` and `term2`.  The engine overfetches, computes both probes capped
at 100 positions, keeps a page iff some pair of positions is within
`max_distance`, paginates the passing pages in score order, and finally
sorts the selected page chronologically. -/

/-- `if p1 > p2 { p1 - p2 } else { p2 - p1 }` (search.rs line 1615). -/
def natDist (p1 p2 : Nat) : Nat :=
  if p2 < p1 then p1 - p2 else p2 - p1

/-- The overfetch bound `((limit + offset) * 20).max(5000)`
(search.rs line 1540). -/
def proximityOverfetchLimit (limit offset : Nat) : Nat :=
  Nat.max ((limit + offset) * 20) 5000

/-- A proximity candidate: stored fields plus the raw per-term position
lists backing the two probes. -/
structure PCand where
  id : Nat
  death_ah : Option Nat
  pos1Raw : List (List Nat)
  pos2Raw : List (List Nat)
deriving DecidableEq, Repr

/-- The probe call of proximity search: positions capped at 100
(search.rs lines 1597-1610). -/
def proxPositions (raw : List (List Nat)) : List Nat :=
  get_matched_positions_internal raw 100

/-- The nested pair loop (search.rs lines 1612-1621): for every matching
pair push `p1` then `p2`. -/
def proxMatchedPairs (pos1 pos2 : List Nat) (maxDist : Nat) : List Nat :=
  pos1.flatMap (fun p1 =>
    pos2.flatMap (fun p2 =>
      if natDist p1 p2 ≤ maxDist then [p1, p2] else []))

theorem mem_proxMatchedPairs (x : Nat) (pos1 pos2 : List Nat) (maxDist : Nat) :
    x ∈ proxMatchedPairs pos1 pos2 maxDist ↔
      (x ∈ pos1 ∧ ∃ q ∈ pos2, natDist x q ≤ maxDist) ∨
      (x ∈ pos2 ∧ ∃ p ∈ pos1, natDist p x ≤ maxDist) := by
  unfold proxMatchedPairs
  simp only [List.mem_flatMap]
  constructor
  · rintro ⟨p1, hp1, p2, hp2, hx⟩
    by_cases hd : natDist p1 p2 ≤ maxDist
    · rw [if_pos hd] at hx
      simp only [List.mem_cons, List.not_mem_nil, or_false] at hx
      rcases hx with rfl | rfl
      · exact Or.inl ⟨hp1, p2, hp2, hd⟩
      · exact Or.inr ⟨hp2, p1, hp1, hd⟩
    · rw [if_neg hd] at hx
      exact absurd hx (List.not_mem_nil x)
  · rintro (⟨hx, q, hq, hd⟩ | ⟨hx, p, hp, hd⟩)
    · exact ⟨x, hx, q, hq, by rw [if_pos hd]; exact List.mem_cons_self _ _⟩
    · exact ⟨p, hp, x, hx, by rw [if_pos hd]; simp⟩

theorem proxMatchedPairs_eq_nil_iff (pos1 pos2 : List Nat) (maxDist : Nat) :
    proxMatchedPairs pos1 pos2 maxDist = [] ↔
      ∀ p1 ∈ pos1, ∀ p2 ∈ pos2, ¬ natDist p1 p2 ≤ maxDist := by
  constructor
  · intro h p1 hp1 p2 hp2 hd
    have : p1 ∈ proxMatchedPairs pos1 pos2 maxDist :=
      (mem_proxMatchedPairs p1 pos1 pos2 maxDist).2 (Or.inl ⟨hp1, p2, hp2, hd⟩)
    rw [h] at this
    exact List.not_mem_nil p1 this
  · intro h
    rcases hn : proxMatchedPairs pos1 pos2 maxDist with _ | ⟨x, rest⟩
    · rfl
    · have hx : x ∈ proxMatchedPairs pos1 pos2 maxDist := by rw [hn]; exact List.mem_cons_self x rest
      rcases (mem_proxMatchedPairs x pos1 pos2 maxDist).1 hx with ⟨h1, q, hq, hd⟩ | ⟨h2, p, hp, hd⟩
      · exact absurd hd (h x h1 q hq)
      · exact absurd hd (h p hp x h2)

/-- The per-candidate body of the proximity loop (search.rs lines
1595-1697): `none` when the page fails the distance post-filter, otherwise
the hydrated result with its highlight positions sorted, deduplicated and
truncated to 50. -/
def proxHydrate (c : PCand) (maxDist : Nat) : Option Res :=
  let m := proxMatchedPairs (proxPositions c.pos1Raw) (proxPositions c.pos2Raw) maxDist
  if m = [] then none
  else some ⟨c.id, 0, 0, c.death_ah, (sortDedup m).take 50⟩

/-- The candidate scan of `proximity_search` (search.rs lines 1591-1698)
with its `skipped`/`results.len()`/`total_matches` bookkeeping; returns
the selected results in score order together with `total_matches`. -/
def proxLoop (maxDist limit offset : Nat) :
    List PCand → Nat → Nat → Nat → List Res × Nat
  | [], _skipped, _nres, total => ([], total)
  | c :: cs, skipped, nres, total =>
    match proxHydrate c maxDist with
    | none => proxLoop maxDist limit offset cs skipped nres total
    | some r =>
      if skipped < offset then proxLoop maxDist limit offset cs (skipped + 1) nres (total + 1)
      else if limit ≤ nres then proxLoop maxDist limit offset cs skipped nres (total + 1)
      else
        let p := proxLoop maxDist limit offset cs skipped (nres + 1) (total + 1)
        (r :: p.1, p.2)

/-- `proximity_search` after query execution: scan the overfetched
candidates, then chronologically sort the selected page (search.rs lines
1591-1718).  Returns the result page and `total_hits`. -/
def proximity_search_post (cands : List PCand) (maxDist limit offset : Nat) :
    List Res × Nat :=
  let p := proxLoop maxDist limit offset cands 0 0 0
  (sortByDeath p.1, p.2)

/-- Characterization of the scan: it selects `take limit (drop offset)`
of the post-filter-passing candidates (in score order) and counts all of
them. -/
theorem proxLoop_eq (maxDist limit offset : Nat) :
    ∀ (cs : List PCand) (skipped nres total : Nat),
      proxLoop maxDist limit offset cs skipped nres total =
        (((cs.filterMap (proxHydrate · maxDist)).drop (offset - skipped)).take (limit - nres),
          total + (cs.filterMap (proxHydrate · maxDist)).length)
  | [], skipped, nres, total => by simp [proxLoop]
  | c :: cs, skipped, nres, total => by
    unfold proxLoop
    cases hc : proxHydrate c maxDist with
    | none =>
      rw [proxLoop_eq maxDist limit offset cs skipped nres total]
      simp [List.filterMap_cons, hc]
    | some r =>
      simp only [List.filterMap_cons, hc]
      by_cases h1 : skipped < offset
      · rw [if_pos h1]
        rw [proxLoop_eq maxDist limit offset cs (skipped + 1) nres (total + 1)]
        have hd : offset - skipped = (offset - (skipped + 1)) + 1 := by omega
        rw [hd, List.drop_succ_cons]
        simp [List.length_cons, Nat.add_assoc, Nat.add_comm 1]
      · rw [if_neg h1]
        have h0 : offset - skipped = 0 := by omega
        by_cases h2 : limit ≤ nres
        · rw [if_pos h2]
          rw [proxLoop_eq maxDist limit offset cs skipped nres (total + 1)]
          have hl : limit - nres = 0 := by omega
          rw [h0, hl]
          simp [List.length_cons, Nat.add_assoc, Nat.add_comm 1, h0]
        · rw [if_neg h2]
          rw [proxLoop_eq maxDist limit offset cs skipped (nres + 1) (total + 1)]
          have hl : limit - nres = (limit - (nres + 1)) + 1 := by omega
          rw [h0, hl]
          simp [List.length_cons, Nat.add_assoc, Nat.add_comm 1, h0]

/-! ## Wildcard search (`wildcard_search`, search.rs lines 2074-2467)

A wildcard candidate carries the raw position lists for the non-wildcard
exact terms and, in term-dictionary order, for each dictionary term
matching the wildcard pattern. -/

/-- `slice::windows`: all contiguous sub-slices of length `k`, in order
(empty when `k` exceeds the length). -/
def windowsList (k : Nat) : List Nat → List (List Nat)
  | [] => []
  | a :: l => if k ≤ (a :: l).length then (a :: l).take k :: windowsList k l else []

/-- The inner check of `verify_adjacency` (search.rs lines 2454-2460):
each element is its predecessor plus one. -/
def consecFrom (a : Nat) : List Nat → Bool
  | [] => true
  | b :: l => b == a + 1 && consecFrom b l

/-- A window is consecutive. -/
def isConsecutive : List Nat → Bool
  | [] => true
  | a :: l => consecFrom a l

/-- `verify_adjacency` (search.rs lines 2446-2467). -/
def verify_adjacency (positions : List Nat) (numTerms : Nat) : Bool :=
  if positions.isEmpty || numTerms ≤ 1 then true
  else (windowsList numTerms positions).any isConsecutive

/-- The term-dictionary scan of `get_wildcard_positions` (search.rs lines
2386-2436): extend the accumulator with each matching dictionary term's
positions and break once `max_positions * 10` entries are gathered. -/
def wildScanAux (cap : Nat) : List (List Nat) → List Nat → List Nat
  | [], acc => acc
  | ps :: rest, acc =>
    if cap ≤ (acc ++ ps).length then acc ++ ps
    else wildScanAux cap rest (acc ++ ps)

/-- `get_wildcard_positions` (search.rs lines 2335-2443): the exact terms'
positions (no break check), then the dictionary scan, then sort, dedup,
truncate. -/
def get_wildcard_positions (exactPos wildPos : List (List Nat)) (maxP : Nat) : List Nat :=
  (sortDedup (wildScanAux (maxP * 10) wildPos exactPos.flatten)).take maxP

/-- A wildcard candidate: stored fields plus the raw position lists
backing `get_wildcard_positions`. -/
structure WCand where
  id : Nat
  death_ah : Option Nat
  exactPos : List (List Nat)
  wildPos : List (List Nat)
deriving DecidableEq, Repr

/-- The phase-2 check (search.rs lines 2160-2178): multi-word queries must
pass `verify_adjacency` on the probed positions (cap 5); single-word
queries always pass. -/
def wildPass (c : WCand) (numTerms : Nat) : Bool :=
  if 1 < numTerms then
    verify_adjacency (get_wildcard_positions c.exactPos c.wildPos 5) numTerms
  else true

/-- Per-candidate body of the wildcard scan (search.rs lines 2160-2255):
`none` when phase 2 rejects, otherwise the hydrated result whose
highlights are the probed positions (cap 5). -/
def wildHydrate (c : WCand) (numTerms : Nat) : Option Res :=
  if wildPass c numTerms then
    some ⟨c.id, 0, 0, c.death_ah, get_wildcard_positions c.exactPos c.wildPos 5⟩
  else none

/-- The candidate scan of `wildcard_search` (search.rs lines 2157-2255)
with its `verified_count`/`results.len()` bookkeeping; returns the
selected results in score order together with `verified_count`. -/
def wildLoop (numTerms limit offset : Nat) :
    List WCand → Nat → Nat → List Res × Nat
  | [], _nres, vcount => ([], vcount)
  | c :: cs, nres, vcount =>
    match wildHydrate c numTerms with
    | none => wildLoop numTerms limit offset cs nres vcount
    | some r =>
      if vcount + 1 ≤ offset then wildLoop numTerms limit offset cs nres (vcount + 1)
      else if limit ≤ nres then wildLoop numTerms limit offset cs nres (vcount + 1)
      else
        let p := wildLoop numTerms limit offset cs (nres + 1) (vcount + 1)
        (r :: p.1, p.2)

/-- The overfetch factor of wildcard search (search.rs line 2139). -/
def wildcardOverfetchFactor (numTerms : Nat) : Nat :=
  if 1 < numTerms then 10 else 1

/-- `wildcard_search` after query execution: scan the overfetched
candidates, then chronologically sort the selected page (search.rs lines
2157-2265).  Returns the result page and `verified_count`. -/
def wildcard_search_post (cands : List WCand) (numTerms limit offset : Nat) :
    List Res × Nat :=
  let p := wildLoop numTerms limit offset cands 0 0
  (sortByDeath p.1, p.2)

/-- Characterization of the wildcard scan: `take limit (drop offset)` of
the verified candidates in score order, counting all of them. -/
theorem wildLoop_eq (numTerms limit offset : Nat) :
    ∀ (cs : List WCand) (nres vcount : Nat),
      wildLoop numTerms limit offset cs nres vcount =
        (((cs.filterMap (wildHydrate · numTerms)).drop (offset - vcount)).take (limit - nres),
          vcount + (cs.filterMap (wildHydrate · numTerms)).length)
  | [], nres, vcount => by simp [wildLoop]
  | c :: cs, nres, vcount => by
    unfold wildLoop
    cases hc : wildHydrate c numTerms with
    | none =>
      rw [wildLoop_eq numTerms limit offset cs nres vcount]
      simp [List.filterMap_cons, hc]
    | some r =>
      simp only [List.filterMap_cons, hc]
      by_cases h1 : vcount + 1 ≤ offset
      · rw [if_pos h1]
        rw [wildLoop_eq numTerms limit offset cs nres (vcount + 1)]
        have hd : offset - vcount = (offset - (vcount + 1)) + 1 := by omega
        rw [hd, List.drop_succ_cons]
        simp [List.length_cons, Nat.add_assoc, Nat.add_comm 1]
      · rw [if_neg h1]
        have h0 : offset - vcount = 0 := by omega
        have h0' : offset - (vcount + 1) = 0 := by omega
        by_cases h2 : limit ≤ nres
        · rw [if_pos h2]
          rw [wildLoop_eq numTerms limit offset cs nres (vcount + 1)]
          have hl : limit - nres = 0 := by omega
          rw [h0, h0', hl]
          simp [List.length_cons, Nat.add_assoc, Nat.add_comm 1]
        · rw [if_neg h2]
          rw [wildLoop_eq numTerms limit offset cs (nres + 1) (vcount + 1)]
          have hl : limit - nres = (limit - (nres + 1)) + 1 := by omega
          rw [h0, h0', hl]
          simp [List.length_cons, Nat.add_assoc, Nat.add_comm 1]

/-! ## Simple, name and combined search pipelines

After query execution each mode holds a score-ordered candidate list.
Simple search (search.rs lines 359-458) and name search (lines 1850-1935)
hydrate every candidate, sort chronologically, and only then apply
`skip(offset).take(limit)`.  Combined search (lines 1347-1473) instead
applies `skip(offset).take(limit)` to the score-ordered candidates,
re-buckets the selected docs per segment (sorted by doc id inside each
bucket), hydrates, and sorts chronologically with no further
pagination. -/

/-- Post-execution phase of `SearchEngine::search` (search.rs lines
359-458): sort the hydrated candidates, then skip `offset` and take
`limit`. -/
def simple_search_post (hydrated : List Res) (limit offset : Nat) : List Res :=
  ((sortByDeath hydrated).drop offset).take limit

/-- Post-execution phase of `SearchEngine::name_search` (search.rs lines
1850-1935): identical ordering to simple search. -/
def name_search_post (hydrated : List Res) (limit offset : Nat) : List Res :=
  ((sortByDeath hydrated).drop offset).take limit

/-- The per-segment re-bucketing of combined search (search.rs lines
1347-1350, 1368-1372): the selected docs are grouped by segment ordinal
(`HashMap` iteration order is arbitrary; the groups are emitted here in
first-key order of the deduplicated key list) and each group is sorted by
doc id. -/
def segGroupAux : List Nat → List Res → List Res
  | [], _ => []
  | s :: ss, docs =>
    List.insertionSort (fun a b => a.docId ≤ b.docId) (docs.filter (fun d => d.seg == s)) ++
      segGroupAux ss (docs.filter (fun d => ¬ d.seg == s))

def segGroup (docs : List Res) : List Res :=
  segGroupAux (docs.map (fun d => d.seg)).dedup docs

theorem segGroupAux_perm :
    ∀ (keys : List Nat) (docs : List Res), (∀ d ∈ docs, d.seg ∈ keys) →
      List.Perm (segGroupAux keys docs) docs
  | [], docs, h => by
    cases docs with
    | nil => exact List.Perm.refl _
    | cons d ds => exact absurd (h d (List.mem_cons_self d ds)) (List.not_mem_nil _)
  | s :: ss, docs, h => by
    unfold segGroupAux
    have hrest : ∀ d ∈ docs.filter (fun d => ¬ d.seg == s), d.seg ∈ ss := by
      intro d hd
      have hmem := List.mem_of_mem_filter hd
      have hne : ¬ (d.seg == s) = true := by
        have := List.of_mem_filter hd
        simpa using this
      rcases List.mem_cons.1 (h d hmem) with heq | hss
      · exact absurd (by simpa using heq) hne
      · exact hss
    have h1 : List.Perm
        (List.insertionSort (fun a b => a.docId ≤ b.docId) (docs.filter (fun d => d.seg == s)))
        (docs.filter (fun d => d.seg == s)) :=
      List.perm_insertionSort _ _
    have h2 : List.Perm (segGroupAux ss (docs.filter (fun d => ¬ d.seg == s)))
        (docs.filter (fun d => ¬ d.seg == s)) :=
      segGroupAux_perm ss _ hrest
    have h3 : List.Perm
        (docs.filter (fun d => d.seg == s) ++ docs.filter (fun d => ¬ d.seg == s)) docs := by
      have := List.filter_append_perm (fun d => d.seg == s) docs
      simpa using this
    exact ((h1.append h2).trans h3)

theorem segGroup_perm (docs : List Res) : List.Perm (segGroup docs) docs := by
  unfold segGroup
  refine segGroupAux_perm _ docs ?_
  intro d hd
  rw [List.mem_dedup]
  exact List.mem_map_of_mem (fun d => d.seg) hd

/-- Post-execution phase of `SearchEngine::combined_search` (search.rs
lines 1347-1473): paginate the score-ordered candidates, re-bucket per
segment, hydrate, and sort chronologically. -/
def combined_search_post (topDocs : List Res) (limit offset : Nat) : List Res :=
  sortByDeath (segGroup ((topDocs.drop offset).take limit))

/-- What claim C1 (spec §4.4, step 8) prescribes for every mode: sort the
hydrated candidates chronologically, then skip `offset` and take
`limit`. -/
def paginateAfterSortSpec (hydrated : List Res) (limit offset : Nat) : List Res :=
  ((sortByDeath hydrated).drop offset).take limit

/-! ## Query modes, plans, and simple-search query building -/

/-- `SearchMode` (search.rs lines 55-62); `lemma` is a Lean keyword, so
the constructor is named `lemmaMode`. -/
inductive SearchMode
  | surface
  | lemmaMode
  | root
deriving DecidableEq, Repr

/-- Mode-directed normalization (search.rs lines 292-296): root queries
through `normalize_root_query`, surface through `normalize_arabic`, lemma
verbatim. -/
def normalizeByMode (mode : SearchMode) (q : List Char) : List Char :=
  match mode with
  | .root => normalize_root_query q
  | .surface => normalize_arabic q
  | .lemmaMode => q

/-- The shape of the text query built by the engine. -/
inductive QueryPlan
  | parsed (q : List Char)
  | term (t : List Char)
  | phrase (ts : List (List Char))
deriving DecidableEq, Repr

/-- The text-query dispatch of `SearchEngine::search` (search.rs lines
298-315): the whitespace-tokenized terms are collected into a `HashSet`,
and the branch tests the number of *distinct* tokens; more than one
distinct token yields an ordered `PhraseQuery` over
`normalized_query.split_whitespace()`, otherwise the normalized string
goes to the `QueryParser`. -/
def searchTextQuery (normalized : List Char) : QueryPlan :=
  if 1 < ((splitWS normalized).dedup).length then .phrase (splitWS normalized)
  else .parsed normalized

/-- `SearchEngine::build_term_query` (search.rs lines 1011-1043), used by
combined and proximity search: more than one word yields a
`PhraseQuery`, exactly one a `TermQuery`, zero the `QueryParser`. -/
def build_term_query_plan (normalized : List Char) : QueryPlan :=
  match splitWS normalized with
  | [] => .parsed normalized
  | [w] => .term w
  | w1 :: w2 :: ws => .phrase (w1 :: w2 :: ws)

/-! ## Wildcard validation (`validate_wildcard_query`, search.rs lines 108-158) -/

/-- `count_arabic_letters` (search.rs lines 89-99). -/
def count_arabic_letters (l : List Char) : Nat :=
  (l.filter (fun c =>
    (0x0621 ≤ c.toNat && c.toNat ≤ 0x064A) || (0x0671 ≤ c.toNat && c.toNat ≤ 0x06D3))).length

/-- The number of `*` characters in the input. -/
def starCount (l : List Char) : Nat :=
  (l.filter (fun c => c == '*')).length

/-- Index of the first `*` in a word (the word is known to contain one). -/
def starIdx (w : List Char) : Nat :=
  (w.takeWhile (fun c => ¬ c == '*')).length

/-- The per-word checks of the validation loop (search.rs lines 131-155).
Byte indices in the Rust code are compared only against `0` and
`word.len() - 1` around the one-byte `*`, so character indices are an
equivalent formulation. -/
def wordCheck (w : List Char) : Except (List Char) Unit :=
  if ¬ w.contains '*' then .ok ()
  else if starIdx w = 0 then .error ("Wildcard cannot be at start of word".data)
  else if starIdx w < w.length - 1 ∧ count_arabic_letters (w.take (starIdx w)) < 2 then
    .error ("Internal wildcard requires at least 2 characters before it".data)
  else .ok ()

def checkWords : List (List Char) → Except (List Char) Unit
  | [] => .ok ()
  | w :: ws =>
    match wordCheck w with
    | .error e => .error e
    | .ok _ => checkWords ws

/-- `validate_wildcard_query` (search.rs lines 108-158). -/
def validate_wildcard_query (q : List Char) (mode : SearchMode) : Except (List Char) Unit :=
  let t := rustTrim q
  if ¬ t.contains '*' then .ok ()
  else if ¬ mode = SearchMode.surface then
    .error ("Wildcards only supported in Surface mode".data)
  else if 1 < starCount t then
    .error ("Only one wildcard (*) allowed per search term".data)
  else checkWords (splitWS t)

/-- The per-word rules as claim C8 states them. -/
def wordOk (w : List Char) : Prop :=
  w.contains '*' = true →
    (starIdx w ≠ 0 ∧
      (starIdx w < w.length - 1 → 2 ≤ count_arabic_letters (w.take (starIdx w))))

instance (w : List Char) : Decidable (wordOk w) := by
  unfold wordOk
  infer_instance

/-- The acceptance condition exactly as claim C8 states it: surface mode,
exactly one `*` in the whole input, and every word passing the per-word
rules. -/
def claimC8Rules (q : List Char) (mode : SearchMode) : Prop :=
  mode = SearchMode.surface ∧ starCount (rustTrim q) = 1 ∧
    ∀ w ∈ splitWS (rustTrim q), wordOk w

instance (q : List Char) (mode : SearchMode) : Decidable (claimC8Rules q mode) := by
  unfold claimC8Rules
  have : DecidablePred wordOk := fun w => inferInstance
  infer_instance

/-! ## Token cache hydration (`TokenCache::load_tokens_from_sqlite`,
cache.rs lines 108-197)

The SQLite reads are modelled as partial maps: `token_defs` stands for the
batched `token_definitions` rows and the five lookup tables are the
in-memory maps loaded at startup.  The page's decoded token-id list is the
input. -/

structure TokenClitic where
  clitic_type : List Char
  display : List Char
deriving DecidableEq, Repr

/-- `Token` (tokens.rs lines 12-22); `lemma` is a Lean keyword, hence the
field name `lemma'`. -/
structure Token where
  idx : Nat
  surface : List Char
  noclitic_surface : Option (List Char)
  lemma' : List Char
  root : Option (List Char)
  pos : List Char
  features : List (List Char)
  clitics : List TokenClitic
deriving DecidableEq, Repr

/-- A `token_definitions` row (cache.rs lines 150-159). -/
structure TokenDef where
  surface : List Char
  lemma_id : Int
  root_id : Option Int
  pos_id : Int
  feature_set_id : Int
  clitic_set_id : Int
deriving DecidableEq, Repr

/-- The five lookup tables (cache.rs lines 12-18). -/
structure Lookups where
  roots : Int → Option (List Char)
  lemmas : Int → Option (List Char)
  pos_types : Int → Option (List Char)
  feature_sets : Int → Option (List (List Char))
  clitic_sets : Int → Option (List TokenClitic)

/-- The body of the hydration closure (cache.rs lines 173-193): the `?`
operators on the lemma and POS lookups drop the token, the root is
optional, and missing feature/clitic sets default to empty lists. -/
def hydrateToken (lk : Lookups) (idx : Nat) (d : TokenDef) : Option Token :=
  match lk.lemmas d.lemma_id, lk.pos_types d.pos_id with
  | some lem, some pos =>
    some ⟨idx, d.surface, none, lem, d.root_id.bind (fun rid => lk.roots rid), pos,
      (lk.feature_sets d.feature_set_id).getD [], (lk.clitic_sets d.clitic_set_id).getD []⟩
  | _, _ => none

/-- `load_tokens_from_sqlite` after blob decoding (cache.rs lines
170-194): `token_ids.iter().enumerate().filter_map(..)`, where the
enumeration index (the position in the *original* id list) becomes the
token's `idx`. -/
def load_tokens_from_sqlite (lk : Lookups) (token_defs : Nat → Option TokenDef)
    (token_ids : List Nat) : List Token :=
  token_ids.enum.filterMap (fun p => (token_defs p.2).bind (hydrateToken lk p.1))

/-- A token id resolves when its definition row exists and the mandatory
lemma and POS lookups succeed. -/
def resolves (lk : Lookups) (token_defs : Nat → Option TokenDef) (tid : Nat) : Prop :=
  ∃ d, token_defs tid = some d ∧
    (lk.lemmas d.lemma_id).isSome = true ∧ (lk.pos_types d.pos_id).isSome = true

/-- The hydration applied to one `(index, token_id)` pair of the
enumeration. -/
def hydrateAt (lk : Lookups) (token_defs : Nat → Option TokenDef) (p : Nat × Nat) :
    Option Token :=
  (token_defs p.2).bind (hydrateToken lk p.1)

theorem load_tokens_eq_filterMap (lk : Lookups) (token_defs : Nat → Option TokenDef)
    (token_ids : List Nat) :
    load_tokens_from_sqlite lk token_defs token_ids =
      (List.enumFrom 0 token_ids).filterMap (hydrateAt lk token_defs) :=
  rfl

theorem hydrateAt_idx (lk : Lookups) (token_defs : Nat → Option TokenDef)
    (k i : Nat) (t : Token) (h : hydrateAt lk token_defs (k, i) = some t) :
    t.idx = k := by
  unfold hydrateAt at h
  cases hd : token_defs i with
  | none => rw [hd] at h; exact Option.noConfusion h
  | some d =>
    rw [hd] at h
    simp only [Option.some_bind] at h
    unfold hydrateToken at h
    cases hl : lk.lemmas d.lemma_id with
    | none => rw [hl] at h; exact Option.noConfusion h
    | some lem =>
      cases hp : lk.pos_types d.pos_id with
      | none => rw [hl, hp] at h; exact Option.noConfusion h
      | some pos =>
        rw [hl, hp] at h
        injection h with h
        rw [show t = _ from h.symm]

theorem resolves_hydrateAt_some (lk : Lookups) (token_defs : Nat → Option TokenDef)
    (k i : Nat) (h : resolves lk token_defs i) :
    ∃ t, hydrateAt lk token_defs (k, i) = some t ∧ t.idx = k := by
  rcases h with ⟨d, hd, hl, hp⟩
  rcases Option.isSome_iff_exists.1 hl with ⟨lem, hlem⟩
  rcases Option.isSome_iff_exists.1 hp with ⟨pos, hpos⟩
  refine ⟨⟨k, d.surface, none, lem, d.root_id.bind (fun rid => lk.roots rid), pos,
    (lk.feature_sets d.feature_set_id).getD [], (lk.clitic_sets d.clitic_set_id).getD []⟩,
    ?_, rfl⟩
  unfold hydrateAt
  rw [hd]
  simp only [Option.some_bind]
  unfold hydrateToken
  rw [hlem, hpos]

/-- Hydration over `enumFrom k` when every id resolves: nothing is
dropped and the token at vector position `p` carries index `k + p`. -/
theorem load_enumFrom_all (lk : Lookups) (token_defs : Nat → Option TokenDef) :
    ∀ (ids : List Nat) (k : Nat), (∀ tid ∈ ids, resolves lk token_defs tid) →
      ((List.enumFrom k ids).filterMap (hydrateAt lk token_defs)).length = ids.length ∧
        ∀ (p : Nat) (t : Token),
          ((List.enumFrom k ids).filterMap (hydrateAt lk token_defs)).get? p = some t →
            t.idx = k + p
  | [], k, _ => by
    refine ⟨rfl, ?_⟩
    intro p t ht
    rw [List.enumFrom_nil, List.filterMap_nil, List.get?_nil] at ht
    exact Option.noConfusion ht
  | i :: ids, k, hres => by
    rcases resolves_hydrateAt_some lk token_defs k i (hres i (List.mem_cons_self i ids)) with
      ⟨t, ht, hidx⟩
    have ih := load_enumFrom_all lk token_defs ids (k + 1)
      (fun tid htid => hres tid (List.mem_cons_of_mem i htid))
    rw [List.enumFrom_cons]
    rw [List.filterMap_cons_some ht]
    constructor
    · simpa using ih.1
    · intro p u hu
      cases p with
      | zero =>
        rw [List.get?_cons_zero] at hu
        injection hu with hu
        rw [show u = t from hu.symm, hidx]
        omega
      | succ q =>
        rw [List.get?_cons_succ] at hu
        have := ih.2 q u hu
        omega

/-- Every hydrated token coming from `enumFrom k` has index at least `k`. -/
theorem load_enumFrom_lb (lk : Lookups) (token_defs : Nat → Option TokenDef) :
    ∀ (ids : List Nat) (k : Nat) (t : Token),
      t ∈ (List.enumFrom k ids).filterMap (hydrateAt lk token_defs) → k ≤ t.idx
  | [], _, t, ht => absurd ht (List.not_mem_nil t)
  | i :: ids, k, t, ht => by
    rw [List.enumFrom_cons] at ht
    cases hc : hydrateAt lk token_defs (k, i) with
    | none =>
      rw [List.filterMap_cons_none hc] at ht
      exact Nat.le_of_succ_le (load_enumFrom_lb lk token_defs ids (k + 1) t ht)
    | some u =>
      rw [List.filterMap_cons_some hc] at ht
      rcases List.mem_cons.1 ht with rfl | ht'
      · rw [hydrateAt_idx lk token_defs k i t hc]
      · exact Nat.le_of_succ_le (load_enumFrom_lb lk token_defs ids (k + 1) t ht')

/-- In general (ids may fail to resolve) the hydrated sequence's `idx`
fields are strictly increasing and the token at vector position `p` has
`idx` at least `k + p`. -/
theorem load_enumFrom_general (lk : Lookups) (token_defs : Nat → Option TokenDef) :
    ∀ (ids : List Nat) (k : Nat),
      ((List.enumFrom k ids).filterMap (hydrateAt lk token_defs)).Pairwise
          (fun a b => a.idx < b.idx) ∧
        ∀ (p : Nat) (t : Token),
          ((List.enumFrom k ids).filterMap (hydrateAt lk token_defs)).get? p = some t →
            k + p ≤ t.idx
  | [], k => by
    refine ⟨List.Pairwise.nil, ?_⟩
    intro p t ht
    rw [List.enumFrom_nil, List.filterMap_nil, List.get?_nil] at ht
    exact Option.noConfusion ht
  | i :: ids, k => by
    have ih := load_enumFrom_general lk token_defs ids (k + 1)
    rw [List.enumFrom_cons]
    cases hc : hydrateAt lk token_defs (k, i) with
    | none =>
      rw [List.filterMap_cons_none hc]
      refine ⟨ih.1, ?_⟩
      intro p t ht
      exact Nat.le_trans (by omega) (ih.2 p t ht)
    | some t =>
      rw [List.filterMap_cons_some hc]
      have hidx : t.idx = k := hydrateAt_idx lk token_defs k i t hc
      constructor
      · refine List.pairwise_cons.2 ⟨?_, ih.1⟩
        intro u hu
        have := load_enumFrom_lb lk token_defs ids (k + 1) u hu
        omega
      · intro p u hu
        cases p with
        | zero =>
          rw [List.get?_cons_zero] at hu
          injection hu with hu
          rw [show u = t from hu.symm]
          omega
        | succ q =>
          rw [List.get?_cons_succ] at hu
          have := ih.2 q u hu
          omega

/-! ## Consecutive-window lemmas for `verify_adjacency` -/

/-- The run `p, p+1, …, p+k-1`. -/
def runList (p : Nat) : Nat → List Nat
  | 0 => []
  | k + 1 => p :: runList (p + 1) k

theorem length_runList (p : Nat) : ∀ (k : Nat), (runList p k).length = k
  | 0 => rfl
  | k + 1 => by
    unfold runList
    rw [List.length_cons, length_runList (p + 1) k]

theorem mem_runList (x : Nat) : ∀ (p k : Nat), x ∈ runList p k ↔ p ≤ x ∧ x < p + k
  | p, 0 => by
    unfold runList
    simp
  | p, k + 1 => by
    unfold runList
    rw [List.mem_cons, mem_runList x (p + 1) k]
    omega

theorem consecFrom_runList (a : Nat) : ∀ (k : Nat), consecFrom a (runList (a + 1) k) = true
  | 0 => rfl
  | k + 1 => by
    unfold runList consecFrom
    rw [consecFrom_runList (a + 1) k]
    simp

theorem isConsecutive_runList (p k : Nat) : isConsecutive (runList p k) = true := by
  cases k with
  | zero => rfl
  | succ k => exact consecFrom_runList p k

theorem consecFrom_eq_runList :
    ∀ (l : List Nat) (a : Nat), consecFrom a l = true → l = runList (a + 1) l.length
  | [], _, _ => rfl
  | b :: l, a, h => by
    unfold consecFrom at h
    rw [Bool.and_eq_true] at h
    obtain ⟨hb, hl⟩ := h
    have hb' : b = a + 1 := by simpa using hb
    subst hb'
    rw [List.length_cons]
    unfold runList
    rw [show l = runList (a + 1 + 1) l.length from consecFrom_eq_runList l (a + 1) hl]
    rw [length_runList]

theorem isConsecutive_eq_runList (l : List Nat) (h : isConsecutive l = true) :
    l = [] ∨ ∃ p, l = runList p l.length := by
  cases l with
  | nil => exact Or.inl rfl
  | cons a t =>
    refine Or.inr ⟨a, ?_⟩
    rw [List.length_cons]
    unfold runList
    rw [show t = runList (a + 1) t.length from consecFrom_eq_runList t a h]
    rw [length_runList]

theorem windowsList_mem (k : Nat) :
    ∀ (l : List Nat) (w : List Nat), w ∈ windowsList k l → w.length = k ∧ ∀ x ∈ w, x ∈ l
  | [], w, hw => absurd (by simpa [windowsList] using hw) (fun h => h)
  | a :: t, w, hw => by
    unfold windowsList at hw
    by_cases hk : k ≤ (a :: t).length
    · rw [if_pos hk] at hw
      rcases List.mem_cons.1 hw with rfl | hw'
      · refine ⟨by rw [List.length_take]; omega, ?_⟩
        intro x hx
        exact List.mem_of_mem_take hx
      · rcases windowsList_mem k t w hw' with ⟨hlen, hsub⟩
        exact ⟨hlen, fun x hx => List.mem_cons_of_mem a (hsub x hx)⟩
    · rw [if_neg hk] at hw
      exact absurd hw (List.not_mem_nil w)

theorem windowsList_ne_nil_le (k : Nat) :
    ∀ (l : List Nat), windowsList k l ≠ [] → k ≤ l.length
  | [], h => absurd rfl h
  | a :: t, h => by
    unfold windowsList at h
    by_cases hk : k ≤ (a :: t).length
    · exact hk
    · rw [if_neg hk] at h
      exact absurd rfl h

/-- A strictly sorted list whose head starts a complete run of length `k`
begins with exactly that run. -/
theorem sorted_head_run_take :
    ∀ (k p : Nat) (t : List Nat), (p :: t).Pairwise (· < ·) →
      (∀ j, j < k → p + j ∈ p :: t) → (p :: t).take k = runList p k
  | 0, _, _, _, _ => by simp [runList]
  | k + 1, p, t, hs, hrun => by
    rw [List.take_succ_cons]
    unfold runList
    cases k with
    | zero => simp [runList]
    | succ k' =>
      have hp1 : p + 1 ∈ p :: t := hrun 1 (by omega)
      have hp1t : p + 1 ∈ t := by
        rcases List.mem_cons.1 hp1 with h | h
        · omega
        · exact h
      cases t with
      | nil => exact absurd hp1t (List.not_mem_nil _)
      | cons b t' =>
        have hb : b = p + 1 := by
          have hpb : p < b := List.rel_of_pairwise_cons hs (List.mem_cons_self b t')
          rcases List.mem_cons.1 hp1t with h | h
          · omega
          · have := List.rel_of_pairwise_cons hs.of_cons h
            omega
        subst hb
        have hrun' : ∀ j, j < k' + 1 → (p + 1) + j ∈ (p + 1) :: t' := by
          intro j hj
          have := hrun (j + 1) (by omega)
          have hx : p + (j + 1) = (p + 1) + j := by omega
          rw [hx] at this
          rcases List.mem_cons.1 this with h | h
          · omega
          · exact h
        have := sorted_head_run_take (k' + 1) (p + 1) t' hs.of_cons hrun'
        rw [congrArg (p :: ·) this]

/-- If a strictly sorted list contains the full run `p, …, p+k-1`, some
window of length `k` is consecutive. -/
theorem run_subset_windows_any :
    ∀ (l : List Nat), l.Pairwise (· < ·) → ∀ (k p : Nat), 1 ≤ k →
      (∀ j, j < k → p + j ∈ l) → (windowsList k l).any isConsecutive = true
  | [], _, k, p, hk, hrun => absurd (hrun 0 (by omega)) (by simp)
  | a :: t, hs, k, p, hk, hrun => by
    by_cases hap : a = p
    · subst hap
      have htake : (a :: t).take k = runList a k := sorted_head_run_take k a t hs hrun
      have hlen : k ≤ (a :: t).length := by
        have h1 : ((a :: t).take k).length = k := by rw [htake, length_runList]
        rw [List.length_take] at h1
        omega
      unfold windowsList
      rw [if_pos hlen]
      rw [List.any_cons, htake, isConsecutive_runList]
      rfl
    · have hpt : p ∈ t := by
        rcases List.mem_cons.1 (hrun 0 (by omega)) with h | h
        · omega
        · exact h
      have hap' : a < p := List.rel_of_pairwise_cons hs hpt
      have hrun' : ∀ j, j < k → p + j ∈ t := by
        intro j hj
        rcases List.mem_cons.1 (hrun j hj) with h | h
        · omega
        · exact h
      have ih := run_subset_windows_any t hs.of_cons k p hk hrun'
      have hne : windowsList k t ≠ [] := by
        intro hnil
        rw [hnil] at ih
        exact Bool.noConfusion ih
      have hlen : k ≤ (a :: t).length := by
        have := windowsList_ne_nil_le k t hne
        rw [List.length_cons]
        omega
      unfold windowsList
      rw [if_pos hlen, List.any_cons, ih]
      simp

/-- Conversely, a consecutive window of length `k ≥ 1` yields a complete
run of members. -/
theorem windows_any_run (k : Nat) (l : List Nat) (hk : 1 ≤ k)
    (h : (windowsList k l).any isConsecutive = true) :
    ∃ p, ∀ j, j < k → p + j ∈ l := by
  rcases List.any_eq_true.1 h with ⟨w, hw, hcons⟩
  rcases windowsList_mem k l w hw with ⟨hlen, hsub⟩
  rcases isConsecutive_eq_runList w hcons with rfl | ⟨p, hp⟩
  · rw [List.length_nil] at hlen
    omega
  · refine ⟨p, ?_⟩
    intro j hj
    refine hsub (p + j) ?_
    rw [hp, mem_runList]
    rw [hlen]
    omega

/-! ## Validation helper lemmas -/

theorem contains_star_iff : ∀ (t : List Char), t.contains '*' = true ↔ 0 < starCount t
  | [] => by simp [starCount]
  | c :: t => by
    unfold starCount
    by_cases hc : c = '*'
    · subst hc
      constructor
      · intro _
        rw [List.filter_cons_of_pos (by simp)]
        simp
      · intro _
        simp [List.contains_cons]
    · rw [List.filter_cons_of_neg (by simpa using hc)]
      rw [List.contains_cons]
      have hbe : ('*' == c) = false := beq_eq_false_iff_ne.2 (Ne.symm hc)
      rw [hbe]
      simpa [starCount] using contains_star_iff t

theorem wordCheck_ok_iff (w : List Char) : wordCheck w = .ok () ↔ wordOk w := by
  unfold wordCheck wordOk
  by_cases h1 : ¬ w.contains '*'
  · rw [if_pos h1]
    simp only [eq_self_iff_true, true_iff]
    intro hc
    exact absurd hc (by simpa using h1)
  · rw [if_neg h1]
    have h1' : w.contains '*' = true := by simpa using h1
    by_cases h2 : starIdx w = 0
    · rw [if_pos h2]
      constructor
      · intro h
        exact Except.noConfusion h
      · intro h
        exact absurd ((h h1').1 h2) (fun q => q)
    · rw [if_neg h2]
      by_cases h3 : starIdx w < w.length - 1 ∧ count_arabic_letters (w.take (starIdx w)) < 2
      · rw [if_pos h3]
        constructor
        · intro h
          exact Except.noConfusion h
        · intro h
          have := (h h1').2 h3.1
          omega
      · rw [if_neg h3]
        simp only [eq_self_iff_true, true_iff]
        intro _
        refine ⟨h2, ?_⟩
        intro hlt
        by_contra hcnt
        exact h3 ⟨hlt, by omega⟩

theorem checkWords_ok_iff : ∀ (ws : List (List Char)), checkWords ws = .ok () ↔ ∀ w ∈ ws, wordOk w
  | [] => by simp [checkWords]
  | w :: ws => by
    unfold checkWords
    cases hw : wordCheck w with
    | error e =>
      constructor
      · intro h
        exact Except.noConfusion h
      · intro h
        have := (wordCheck_ok_iff w).2 (h w (List.mem_cons_self w ws))
        rw [hw] at this
        exact Except.noConfusion this
    | ok u =>
      cases u
      rw [checkWords_ok_iff ws]
      constructor
      · intro h x hx
        rcases List.mem_cons.1 hx with rfl | hx'
        · exact (wordCheck_ok_iff x).1 hw
        · exact h x hx'
      · intro h x hx
        exact h x (List.mem_cons_of_mem w hx)

/-- What `validate_wildcard_query` actually accepts: either the trimmed
input has no `*` at all (in which case no rule is checked), or the mode is
surface, the input has exactly one `*`, and every word passes the
per-word checks. -/
theorem validate_ok_iff (q : List Char) (mode : SearchMode) :
    validate_wildcard_query q mode = .ok () ↔
      (starCount (rustTrim q) = 0 ∨
        (mode = SearchMode.surface ∧ starCount (rustTrim q) = 1 ∧
          ∀ w ∈ splitWS (rustTrim q), wordOk w)) := by
  unfold validate_wildcard_query
  by_cases h1 : ¬ (rustTrim q).contains '*'
  · rw [if_pos h1]
    have h0 : starCount (rustTrim q) = 0 := by
      by_contra hne
      exact h1 ((contains_star_iff (rustTrim q)).2 (by omega))
    simp [h0]
  · rw [if_neg h1]
    have hpos : 0 < starCount (rustTrim q) :=
      (contains_star_iff (rustTrim q)).1 (by simpa using h1)
    by_cases h2 : ¬ mode = SearchMode.surface
    · rw [if_pos h2]
      constructor
      · intro h
        exact Except.noConfusion h
      · intro h
        rcases h with h | ⟨hm, _⟩
        · omega
        · exact absurd hm (by simpa using h2)
    · rw [if_neg h2]
      have hm : mode = SearchMode.surface := by
        by_contra hc
        exact h2 hc
      by_cases h3 : 1 < starCount (rustTrim q)
      · rw [if_pos h3]
        constructor
        · intro h
          exact Except.noConfusion h
        · intro h
          rcases h with h | ⟨_, hone, _⟩
          · omega
          · omega
      · rw [if_neg h3]
        have hone : starCount (rustTrim q) = 1 := by omega
        rw [checkWords_ok_iff]
        constructor
        · intro h
          exact Or.inr ⟨hm, hone, h⟩
        · intro h
          rcases h with h | ⟨_, _, hall⟩
          · omega
          · exact hall

/-! ## Claim theorems -/

/-- Claim C1, counterexample: combined search does not paginate after the
chronological re-sort.  With two single-segment candidates in score order
(death years 100 then 50), `offset = 1`, `limit = 1`, the engine applies
`skip(1).take(1)` to the score-ordered list first and returns the year-50
document, while sorting first and then paginating would return the
year-100 document. -/
theorem c1_counterexample :
    combined_search_post [⟨1, 0, 0, some 100, []⟩, ⟨2, 0, 1, some 50, []⟩] 1 1 ≠
      paginateAfterSortSpec [⟨1, 0, 0, some 100, []⟩, ⟨2, 0, 1, some 50, []⟩] 1 1 := by
  decide

/-- Claim C1 as amended: simple and name search sort the hydrated
candidates chronologically and only then skip `offset` and take `limit`;
combined search instead applies `offset`/`limit` to the score-ordered
candidates before hydration (its output is a chronological permutation of
that pre-sort selection); proximity and wildcard search apply
`offset`/`limit` to the post-filter-passing candidates in score order and
chronologically sort only the selected page, while counting all passing
candidates. -/
theorem c1_amended_pagination_placement :
    (∀ (cands : List Res) (limit offset : Nat),
        simple_search_post cands limit offset = paginateAfterSortSpec cands limit offset)
    ∧ (∀ (cands : List Res) (limit offset : Nat),
        name_search_post cands limit offset = paginateAfterSortSpec cands limit offset)
    ∧ (∀ (topDocs : List Res) (limit offset : Nat),
        List.Perm (combined_search_post topDocs limit offset) ((topDocs.drop offset).take limit))
    ∧ (∀ (cands : List PCand) (maxDist limit offset : Nat),
        proximity_search_post cands maxDist limit offset =
          (sortByDeath (((cands.filterMap (proxHydrate · maxDist)).drop offset).take limit),
            (cands.filterMap (proxHydrate · maxDist)).length))
    ∧ (∀ (cands : List WCand) (numTerms limit offset : Nat),
        wildcard_search_post cands numTerms limit offset =
          (sortByDeath (((cands.filterMap (wildHydrate · numTerms)).drop offset).take limit),
            (cands.filterMap (wildHydrate · numTerms)).length)) := by
  refine ⟨fun _ _ _ => rfl, fun _ _ _ => rfl, ?_, ?_, ?_⟩
  · intro topDocs limit offset
    exact (sortByDeath_perm _).trans (segGroup_perm _)
  · intro cands maxDist limit offset
    show (sortByDeath (proxLoop maxDist limit offset cands 0 0 0).1,
      (proxLoop maxDist limit offset cands 0 0 0).2) = _
    rw [proxLoop_eq maxDist limit offset cands 0 0 0]
    simp
  · intro cands numTerms limit offset
    show (sortByDeath (wildLoop numTerms limit offset cands 0 0).1,
      (wildLoop numTerms limit offset cands 0 0).2) = _
    rw [wildLoop_eq numTerms limit offset cands 0 0]
    simp

/-- Claim C2: in every mode the returned result list is chronologically
ordered: adjacent results `(a, b)` satisfy `a.death_ah ≤ b.death_ah` or
`b.death_ah = none`, and results without a death year come after all
results that have one. -/
theorem c2_chronological_order :
    (∀ (cands : List Res) (limit offset : Nat),
        chronological (simple_search_post cands limit offset))
    ∧ (∀ (cands : List Res) (limit offset : Nat),
        chronological (name_search_post cands limit offset))
    ∧ (∀ (topDocs : List Res) (limit offset : Nat),
        chronological (combined_search_post topDocs limit offset))
    ∧ (∀ (cands : List PCand) (maxDist limit offset : Nat),
        chronological (proximity_search_post cands maxDist limit offset).1)
    ∧ (∀ (cands : List WCand) (numTerms limit offset : Nat),
        chronological (wildcard_search_post cands numTerms limit offset).1) := by
  refine ⟨?_, ?_, ?_, ?_, ?_⟩
  · intro cands limit offset
    exact chronological_drop_take _ (sortByDeath_pairwise cands) offset limit
  · intro cands limit offset
    exact chronological_drop_take _ (sortByDeath_pairwise cands) offset limit
  · intro topDocs limit offset
    exact chronological_sortByDeath _
  · intro cands maxDist limit offset
    exact chronological_sortByDeath _
  · intro cands numTerms limit offset
    exact chronological_sortByDeath _

/-- Claim C3: with `TopDocs(limit + offset)` delivering
`min(limit + offset, total)` candidates, simple, name and combined search
return exactly `min(limit, total − offset)` results (`total` is the raw
hit count, natural subtraction supplying the `max(0, ·)`), and proximity
and wildcard search return exactly
`min(limit, total_after_filter − offset)` results, `total_after_filter`
being the reported count of post-filter-passing candidates. -/
theorem c3_pagination_length :
    (∀ (cands : List Res) (limit offset total : Nat),
        cands.length = min (limit + offset) total →
        (simple_search_post cands limit offset).length = min limit (total - offset))
    ∧ (∀ (cands : List Res) (limit offset total : Nat),
        cands.length = min (limit + offset) total →
        (name_search_post cands limit offset).length = min limit (total - offset))
    ∧ (∀ (topDocs : List Res) (limit offset total : Nat),
        topDocs.length = min (limit + offset) total →
        (combined_search_post topDocs limit offset).length = min limit (total - offset))
    ∧ (∀ (cands : List PCand) (maxDist limit offset : Nat),
        (proximity_search_post cands maxDist limit offset).1.length =
          min limit ((proximity_search_post cands maxDist limit offset).2 - offset))
    ∧ (∀ (cands : List WCand) (numTerms limit offset : Nat),
        (wildcard_search_post cands numTerms limit offset).1.length =
          min limit ((wildcard_search_post cands numTerms limit offset).2 - offset)) := by
  have hsort : ∀ l : List Res, (sortByDeath l).length = l.length :=
    fun l => (sortByDeath_perm l).length_eq
  refine ⟨?_, ?_, ?_, ?_, ?_⟩
  · intro cands limit offset total htot
    unfold simple_search_post
    rw [List.length_take, List.length_drop, hsort, htot]
    omega
  · intro cands limit offset total htot
    unfold name_search_post
    rw [List.length_take, List.length_drop, hsort, htot]
    omega
  · intro topDocs limit offset total htot
    unfold combined_search_post
    rw [hsort, (segGroup_perm _).length_eq, List.length_take, List.length_drop, htot]
    omega
  · intro cands maxDist limit offset
    show (sortByDeath (proxLoop maxDist limit offset cands 0 0 0).1).length =
      min limit ((proxLoop maxDist limit offset cands 0 0 0).2 - offset)
    rw [proxLoop_eq maxDist limit offset cands 0 0 0]
    rw [hsort, List.length_take, List.length_drop]
    omega
  · intro cands numTerms limit offset
    show (sortByDeath (wildLoop numTerms limit offset cands 0 0).1).length =
      min limit ((wildLoop numTerms limit offset cands 0 0).2 - offset)
    rw [wildLoop_eq numTerms limit offset cands 0 0]
    rw [hsort, List.length_take, List.length_drop]
    omega

/-- Claim C3 witness: a concrete instance with two fetched candidates,
`limit = 1`, `offset = 1`, raw hit count 2. -/
theorem c3_pagination_length_witness :
    (simple_search_post [⟨1, 0, 0, some 100, []⟩, ⟨2, 0, 1, some 50, []⟩] 1 1).length =
      min 1 (2 - 1) :=
  c3_pagination_length.1 [⟨1, 0, 0, some 100, []⟩, ⟨2, 0, 1, some 50, []⟩] 1 1 2 (by decide)

/-- Claim C4, counterexample: `root_normalize` is not idempotent.  On the
two-letter word `"ab"` the first application yields `"a.b"` and the second
`"a...b"`, because the inserted dots are themselves dotted again. -/
theorem c4_counterexample :
    normalize_root_query (normalize_root_query ('a' :: ['b'])) ≠
      normalize_root_query ('a' :: ['b']) := by
  decide

/-- Claim C4 as amended: `surface_normalize` is idempotent for every
string, but `root_normalize` is not idempotent (re-applying it inserts
additional dots between the already-dotted characters). -/
theorem c4_amended_idempotence :
    (∀ s : List Char, normalize_arabic (normalize_arabic s) = normalize_arabic s)
    ∧ (∃ s : List Char,
        normalize_root_query (normalize_root_query s) ≠ normalize_root_query s) :=
  ⟨normalize_arabic_idem, ⟨'a' :: ['b'], by decide⟩⟩

/-- Claim C5, counterexample: the lemma-mode query `"ab ab"` has two
whitespace tokens, but because simple search counts *distinct* tokens via
a `HashSet`, it is handed to the query parser instead of being executed as
an ordered phrase query. -/
theorem c5_counterexample :
    (splitWS (normalizeByMode SearchMode.lemmaMode ('a' :: 'b' :: ' ' :: 'a' :: ['b']))).length = 2 ∧
      searchTextQuery (normalizeByMode SearchMode.lemmaMode ('a' :: 'b' :: ' ' :: 'a' :: ['b'])) =
        QueryPlan.parsed ('a' :: 'b' :: ' ' :: 'a' :: ['b']) ∧
      ∀ ts, QueryPlan.parsed ('a' :: 'b' :: ' ' :: 'a' :: ['b']) ≠ QueryPlan.phrase ts :=
  ⟨by decide, by decide, fun _ h => QueryPlan.noConfusion h⟩

/-- Claim C5 as amended: simple search branches on the number of
*distinct* whitespace tokens of the normalized query — more than one
distinct token yields an ordered phrase query over the whitespace-split
terms (duplicates included), otherwise (including repeated-identical-token
queries) the normalized string goes to the index query parser; the
per-term builder used by combined search branches on the token count with
multiplicity — exactly one word yields a term query and more than one an
ordered phrase query. -/
theorem c5_amended_query_dispatch (normalized : List Char) :
    (1 < ((splitWS normalized).dedup).length →
        searchTextQuery normalized = QueryPlan.phrase (splitWS normalized))
    ∧ (((splitWS normalized).dedup).length ≤ 1 →
        searchTextQuery normalized = QueryPlan.parsed normalized)
    ∧ (∀ w, splitWS normalized = [w] → build_term_query_plan normalized = QueryPlan.term w)
    ∧ (1 < (splitWS normalized).length →
        build_term_query_plan normalized = QueryPlan.phrase (splitWS normalized)) := by
  refine ⟨?_, ?_, ?_, ?_⟩
  · intro h
    unfold searchTextQuery
    rw [if_pos h]
  · intro h
    unfold searchTextQuery
    rw [if_neg (by omega)]
  · intro w hw
    unfold build_term_query_plan
    rw [hw]
  · intro h
    unfold build_term_query_plan
    cases hs : splitWS normalized with
    | nil => rw [hs] at h; exact absurd h (by simp)
    | cons w1 rest =>
      cases rest with
      | nil => rw [hs] at h; exact absurd h (by simp)
      | cons w2 ws => rfl

/-- Claim C5 witness: a two-distinct-token query is executed as a phrase
query and a one-word term goes through the term-query branch of the
per-term builder. -/
theorem c5_amended_witness :
    searchTextQuery ('a' :: ' ' :: ['b']) = QueryPlan.phrase (splitWS ('a' :: ' ' :: ['b'])) ∧
      build_term_query_plan ['a'] = QueryPlan.term ['a'] :=
  ⟨(c5_amended_query_dispatch ('a' :: ' ' :: ['b'])).1 (by decide),
   (c5_amended_query_dispatch ['a']).2.2.1 ['a'] (by decide)⟩

/-- The union of matching endpoint positions, as the spec words it: the
positions of either probe that participate in at least one pair within
`max_distance`. -/
def matchingEndpoints (pos1 pos2 : List Nat) (maxDist : Nat) : List Nat :=
  pos1.filter (fun p => pos2.any (fun q => natDist p q ≤ maxDist)) ++
    pos2.filter (fun q => pos1.any (fun p => natDist p q ≤ maxDist))

theorem mem_matchingEndpoints (x : Nat) (pos1 pos2 : List Nat) (maxDist : Nat) :
    x ∈ matchingEndpoints pos1 pos2 maxDist ↔
      (x ∈ pos1 ∧ ∃ q ∈ pos2, natDist x q ≤ maxDist) ∨
      (x ∈ pos2 ∧ ∃ p ∈ pos1, natDist p x ≤ maxDist) := by
  unfold matchingEndpoints
  rw [List.mem_append, List.mem_filter, List.mem_filter]
  constructor
  · rintro (⟨h1, h2⟩ | ⟨h1, h2⟩)
    · rcases List.any_eq_true.1 h2 with ⟨q, hq, hd⟩
      exact Or.inl ⟨h1, q, hq, by simpa using hd⟩
    · rcases List.any_eq_true.1 h2 with ⟨p, hp, hd⟩
      exact Or.inr ⟨h1, p, hp, by simpa using hd⟩
  · rintro (⟨h1, q, hq, hd⟩ | ⟨h1, p, hp, hd⟩)
    · exact Or.inl ⟨h1, List.any_eq_true.2 ⟨q, hq, by simpa using hd⟩⟩
    · exact Or.inr ⟨h1, List.any_eq_true.2 ⟨p, hp, by simpa using hd⟩⟩

theorem proxMatchedPairs_ne_nil_iff (pos1 pos2 : List Nat) (maxDist : Nat) :
    ¬ proxMatchedPairs pos1 pos2 maxDist = [] ↔
      ∃ p1 ∈ pos1, ∃ p2 ∈ pos2, natDist p1 p2 ≤ maxDist := by
  rw [proxMatchedPairs_eq_nil_iff]
  push_neg
  simp only [not_forall, not_not, exists_prop]

/-- Claim C6: proximity search overfetches
`max(5000, 20 · (limit + offset))` candidates; each term's positions are
computed capped at 100; a candidate is kept iff some pair `(p1, p2)` of
probed positions satisfies `|p1 − p2| ≤ max_distance`; and every kept
page's highlight list is the sorted, deduplicated union of the matching
endpoint positions truncated to 50. -/
theorem c6_proximity_post_filter :
    (∀ limit offset : Nat,
        proximityOverfetchLimit limit offset = max 5000 (20 * (limit + offset)))
    ∧ (∀ raw : List (List Nat), (proxPositions raw).length ≤ 100)
    ∧ (∀ (c : PCand) (maxDist : Nat),
        (proxHydrate c maxDist).isSome = true ↔
          ∃ p1 ∈ proxPositions c.pos1Raw, ∃ p2 ∈ proxPositions c.pos2Raw,
            natDist p1 p2 ≤ maxDist)
    ∧ (∀ (c : PCand) (maxDist : Nat) (r : Res), proxHydrate c maxDist = some r →
        r.matched = (sortDedup (matchingEndpoints (proxPositions c.pos1Raw)
          (proxPositions c.pos2Raw) maxDist)).take 50) := by
  refine ⟨?_, ?_, ?_, ?_⟩
  · intro limit offset
    unfold proximityOverfetchLimit
    rw [Nat.max_comm, Nat.mul_comm]
  · intro raw
    unfold proxPositions get_matched_positions_internal
    exact List.length_take_le 100 _
  · intro c maxDist
    unfold proxHydrate
    by_cases hm : proxMatchedPairs (proxPositions c.pos1Raw) (proxPositions c.pos2Raw) maxDist = []
    · rw [if_pos hm]
      simp only [Option.isSome_none, Bool.false_eq_true, false_iff]
      intro hex
      exact absurd hex (by rw [Iff.symm (proxMatchedPairs_ne_nil_iff _ _ _)]; simpa using hm)
    · rw [if_neg hm]
      simp only [Option.isSome_some, true_iff]
      exact (proxMatchedPairs_ne_nil_iff _ _ _).1 hm
  · intro c maxDist r hr
    unfold proxHydrate at hr
    by_cases hm : proxMatchedPairs (proxPositions c.pos1Raw) (proxPositions c.pos2Raw) maxDist = []
    · rw [if_pos hm] at hr
      exact Option.noConfusion hr
    · rw [if_neg hm] at hr
      injection hr with hr
      have hmem : ∀ x,
          x ∈ proxMatchedPairs (proxPositions c.pos1Raw) (proxPositions c.pos2Raw) maxDist ↔
            x ∈ matchingEndpoints (proxPositions c.pos1Raw) (proxPositions c.pos2Raw) maxDist :=
        fun x => (mem_proxMatchedPairs x _ _ _).trans (mem_matchingEndpoints x _ _ _).symm
      rw [show r = _ from hr.symm]
      rw [sortDedup_congr _ _ hmem]

/-- Claim C6 witness: a page with `term1` at position 10 and `term2` at
position 13 within distance 5 is kept and highlighted at `[10, 13]`. -/
theorem c6_proximity_witness :
    (proxHydrate ⟨0, none, [[10]], [[13]]⟩ 5).isSome = true ∧
      ([10, 13] : List Nat) =
        (sortDedup (matchingEndpoints (proxPositions [[10]]) (proxPositions [[13]]) 5)).take 50 := by
  constructor
  · exact (c6_proximity_post_filter.2.2.1 ⟨0, none, [[10]], [[13]]⟩ 5).2
      ⟨10, by decide, 13, by decide, by decide⟩
  · have h := c6_proximity_post_filter.2.2.2 ⟨0, none, [[10]], [[13]]⟩ 5
      ⟨0, 0, 0, none, [10, 13]⟩ (by decide)
    simpa using h

/-- Claim C7, counterexample: a multi-word wildcard candidate whose probed
position list is empty passes `verify_adjacency` (the empty guard returns
`true`), although the sorted probed position set contains no window of two
consecutive integers — so "passes iff the position set contains a
consecutive window" is false, and no phrase occurrence is implied. -/
theorem c7_counterexample :
    wildHydrate ⟨0, none, [], []⟩ 2 =
        some ⟨0, 0, 0, none, get_wildcard_positions [] [] 5⟩ ∧
      get_wildcard_positions [] [] 5 = [] ∧
      ¬ ∃ p : Nat, ∀ j, j < 2 → p + j ∈ get_wildcard_positions [] [] 5 := by
  refine ⟨by decide, by decide, ?_⟩
  rintro ⟨p, h⟩
  have h0 := h 0 (by omega)
  rw [show get_wildcard_positions [] [] 5 = [] from by decide] at h0
  exact List.not_mem_nil _ h0

/-- Claim C7 as amended: the probed position list of a wildcard candidate
is strictly sorted, and for `|terms| ≥ 2` the post-filter passes a
candidate iff its probed position list is empty or contains a complete run
of `|terms|` consecutive integers.  The test inspects positions only, so
it checks neither term identity nor order at those positions. -/
theorem c7_amended_adjacency :
    (∀ (exactPos wildPos : List (List Nat)) (maxP : Nat),
        (get_wildcard_positions exactPos wildPos maxP).Pairwise (· < ·))
    ∧ (∀ (positions : List Nat) (numTerms : Nat),
        positions.Pairwise (· < ·) → 2 ≤ numTerms →
        (verify_adjacency positions numTerms = true ↔
          (positions = [] ∨ ∃ p, ∀ j, j < numTerms → p + j ∈ positions))) := by
  constructor
  · intro exactPos wildPos maxP
    unfold get_wildcard_positions
    exact (sortDedup_pairwise_lt _).sublist (List.take_sublist _ _)
  · intro positions numTerms hsorted hk
    unfold verify_adjacency
    by_cases hemp : positions = []
    · subst hemp
      constructor
      · intro _
        exact Or.inl rfl
      · intro _
        rfl
    · have hie : positions.isEmpty = false := by
        cases positions with
        | nil => exact absurd rfl hemp
        | cons a t => rfl
      have hnt : decide (numTerms ≤ 1) = false := by
        simp only [decide_eq_false_iff_not]
        omega
      rw [hie, hnt]
      simp only [Bool.or_self, Bool.false_eq_true, if_false]
      constructor
      · intro h
        exact Or.inr (windows_any_run numTerms positions (by omega) h)
      · intro h
        rcases h with h | ⟨p, hrun⟩
        · exact absurd h hemp
        · exact run_subset_windows_any positions hsorted numTerms p (by omega) hrun

/-- Claim C7 witness: the strictly sorted position list `[3, 4]` passes
the two-term adjacency test because it contains the run `3, 4`. -/
theorem c7_amended_witness : verify_adjacency [3, 4] 2 = true :=
  (c7_amended_adjacency.2 [3, 4] 2 (by decide) (by omega)).2 (Or.inr ⟨3, by decide⟩)

/-- Claim C8, counterexample: the star-free query `"ab"` in lemma mode
violates the claimed rules (the mode is not surface and the input does not
contain exactly one `*`), yet `validate_wildcard_query` accepts it — the
validator returns `Ok` for any input without `*` before checking any
rule. -/
theorem c8_counterexample :
    validate_wildcard_query ('a' :: ['b']) SearchMode.lemmaMode = .ok () ∧
      ¬ claimC8Rules ('a' :: ['b']) SearchMode.lemmaMode :=
  ⟨rfl, by decide⟩

/-- Claim C8 as amended: a query containing no `*` is always accepted;
a query containing at least one `*` is accepted iff the mode is surface,
the whole input contains exactly one `*`, the `*` is not the first
character of its word, and an internal wildcard has at least two Arabic
letters (U+0621..U+064A or U+0671..U+06D3) before it. -/
theorem c8_amended_validation (q : List Char) (mode : SearchMode) :
    validate_wildcard_query q mode = .ok () ↔
      (starCount (rustTrim q) = 0 ∨
        (mode = SearchMode.surface ∧ starCount (rustTrim q) = 1 ∧
          ∀ w ∈ splitWS (rustTrim q), wordOk w)) :=
  validate_ok_iff q mode

/-- Claim C9, counterexample: with per-term raw positions
`[10, 20, 30, 40, 50]` and `[1]` and cap 5, the early break of
`get_matched_positions_internal` drops the second term entirely and
returns `[10, 20, 30, 40, 50]`, while the spec's union-sort-dedup-truncate
returns `[1, 10, 20, 30, 40]`. -/
theorem c9_counterexample :
    get_matched_positions_internal [[10, 20, 30, 40, 50], [1]] 5 = [10, 20, 30, 40, 50] ∧
      positionsUnionSpec [[10, 20, 30, 40, 50], [1]] 5 = [1, 10, 20, 30, 40] ∧
      get_matched_positions_internal [[10, 20, 30, 40, 50], [1]] 5 ≠
        positionsUnionSpec [[10, 20, 30, 40, 50], [1]] 5 :=
  ⟨by decide, by decide, by decide⟩

/-- Claim C9 as amended: the probe processes terms in iteration order and
stops extending once the accumulated raw position count reaches `max`; for
a single term, or whenever the terms' raw positions jointly number at most
`max`, the result is exactly the union of the terms' raw positions,
sorted, deduplicated, and truncated to `max`. -/
theorem c9_amended_probe_union :
    (∀ (ps : List Nat) (maxP : Nat),
        get_matched_positions_internal [ps] maxP = positionsUnionSpec [ps] maxP)
    ∧ (∀ (termPositions : List (List Nat)) (maxP : Nat),
        termPositions.flatten.length ≤ maxP →
        get_matched_positions_internal termPositions maxP =
          positionsUnionSpec termPositions maxP) :=
  ⟨get_matched_positions_internal_single, get_matched_positions_internal_eq_spec⟩

/-- Claim C9 witness: a concrete two-term instance below the cap. -/
theorem c9_amended_witness :
    get_matched_positions_internal [[3, 1], [2]] 5 = positionsUnionSpec [[3, 1], [2]] 5 :=
  c9_amended_probe_union.2 [[3, 1], [2]] 5 (by decide)

/-- Claim C10, counterexample: token ids `[1, 2]` where id 1 has no
definition row hydrate to a single token that keeps its original index 1,
so the token at vector position 0 has `idx = 1 ≠ 0` — after a dropped
definition, vector positions and `idx` fields (hence inverted-index
positions) disagree. -/
theorem c10_counterexample :
    ((load_tokens_from_sqlite
        ⟨fun _ => none, fun i => if i = 5 then some ('l' :: ['m']) else none,
          fun i => if i = 6 then some ('p' :: ['s']) else none,
          fun _ => none, fun _ => none⟩
        (fun i => if i = 2 then some ⟨'s' :: ['f'], 5, none, 6, 0, 0⟩ else none)
        [1, 2]).get? 0).map Token.idx = some 1 ∧
      ((load_tokens_from_sqlite
        ⟨fun _ => none, fun i => if i = 5 then some ('l' :: ['m']) else none,
          fun i => if i = 6 then some ('p' :: ['s']) else none,
          fun _ => none, fun _ => none⟩
        (fun i => if i = 2 then some ⟨'s' :: ['f'], 5, none, 6, 0, 0⟩ else none)
        [1, 2]).get? 0).map Token.idx ≠ some 0 :=
  ⟨by decide, by decide⟩

/-- Claim C10 as amended: when every token id resolves (its definition row
exists and the lemma and POS lookups succeed), the hydrated page is
complete and the token at vector position `p` has `idx = p`; in general
the `idx` fields are strictly increasing and the token at vector position
`p` has `idx ≥ p` — dropped definitions shift later tokens to earlier
vector positions while they keep their original `idx`, so a probe position
`p` then denotes the token whose `idx` field is `p`, not `tokens[p]`. -/
theorem c10_amended_token_indices :
    (∀ (lk : Lookups) (token_defs : Nat → Option TokenDef) (token_ids : List Nat),
        (∀ tid ∈ token_ids, resolves lk token_defs tid) →
        (load_tokens_from_sqlite lk token_defs token_ids).length = token_ids.length ∧
          ∀ (p : Nat) (t : Token),
            (load_tokens_from_sqlite lk token_defs token_ids).get? p = some t → t.idx = p)
    ∧ (∀ (lk : Lookups) (token_defs : Nat → Option TokenDef) (token_ids : List Nat),
        (load_tokens_from_sqlite lk token_defs token_ids).Pairwise
            (fun a b => a.idx < b.idx) ∧
          ∀ (p : Nat) (t : Token),
            (load_tokens_from_sqlite lk token_defs token_ids).get? p = some t → p ≤ t.idx) := by
  constructor
  · intro lk token_defs token_ids hres
    rw [load_tokens_eq_filterMap]
    rcases load_enumFrom_all lk token_defs token_ids 0 hres with ⟨hlen, hidx⟩
    refine ⟨hlen, ?_⟩
    intro p t ht
    have := hidx p t ht
    omega
  · intro lk token_defs token_ids
    rw [load_tokens_eq_filterMap]
    rcases load_enumFrom_general lk token_defs token_ids 0 with ⟨hpw, hge⟩
    refine ⟨hpw, ?_⟩
    intro p t ht
    have := hge p t ht
    omega

/-- Claim C10 witness: a fully resolving one-token page hydrates to a
token with `idx = 0` at vector position 0. -/
theorem c10_amended_witness :
    (load_tokens_from_sqlite
        ⟨fun _ => none, fun i => if i = 5 then some ('l' :: ['m']) else none,
          fun i => if i = 6 then some ('p' :: ['s']) else none,
          fun _ => none, fun _ => none⟩
        (fun i => if i = 2 then some ⟨'s' :: ['f'], 5, none, 6, 0, 0⟩ else none)
        [2]).length = 1 ∧
      ∀ t, (load_tokens_from_sqlite
        ⟨fun _ => none, fun i => if i = 5 then some ('l' :: ['m']) else none,
          fun i => if i = 6 then some ('p' :: ['s']) else none,
          fun _ => none, fun _ => none⟩
        (fun i => if i = 2 then some ⟨'s' :: ['f'], 5, none, 6, 0, 0⟩ else none)
        [2]).get? 0 = some t → t.idx = 0 := by
  have h := c10_amended_token_indices.1
    ⟨fun _ => none, fun i => if i = 5 then some ('l' :: ['m']) else none,
      fun i => if i = 6 then some ('p' :: ['s']) else none,
      fun _ => none, fun _ => none⟩
    (fun i => if i = 2 then some ⟨'s' :: ['f'], 5, none, 6, 0, 0⟩ else none)
    [2]
    (by
      intro tid htid
      have htid2 : tid = 2 := by simpa using htid
      subst htid2
      exact ⟨⟨'s' :: ['f'], 5, none, 6, 0, 0⟩, by decide, by decide, by decide⟩)
  exact ⟨h.1, fun t ht => h.2 0 t ht⟩

/-- Claim C1 witness: simple search on a concrete candidate list agrees
with sort-then-paginate. -/
theorem c1_amended_witness :
    simple_search_post [⟨1, 0, 0, some 100, []⟩, ⟨2, 0, 1, some 50, []⟩] 2 0 =
      paginateAfterSortSpec [⟨1, 0, 0, some 100, []⟩, ⟨2, 0, 1, some 50, []⟩] 2 0 :=
  c1_amended_pagination_placement.1 [⟨1, 0, 0, some 100, []⟩, ⟨2, 0, 1, some 50, []⟩] 2 0

/-- Claim C2 witness: a concrete simple-search result page is
chronologically ordered. -/
theorem c2_chronological_witness :
    chronological (simple_search_post [⟨1, 0, 0, some 100, []⟩, ⟨2, 0, 1, some 50, []⟩] 2 0) :=
  c2_chronological_order.1 [⟨1, 0, 0, some 100, []⟩, ⟨2, 0, 1, some 50, []⟩] 2 0

/-- Claim C4 witness: surface idempotence at a concrete string. -/
theorem c4_amended_witness :
    normalize_arabic (normalize_arabic ('a' :: ['b'])) = normalize_arabic ('a' :: ['b']) :=
  c4_amended_idempotence.1 ('a' :: ['b'])

/-- Claim C8 witness: the surface-mode query `"a*"` satisfies all rules
and is accepted. -/
theorem c8_amended_witness :
    validate_wildcard_query ('a' :: ['*']) SearchMode.surface = .ok () :=
  (c8_amended_validation ('a' :: ['*']) SearchMode.surface).2
    (Or.inr ⟨rfl, by decide, by decide⟩)

end Kashshaf
